import Mathlib

/-!
Verification of the data-aggregation core of the GitHub profile analyzer
(`src/App.tsx`): the language histogram, the daily commit-activity series,
and the fetch-cycle state machine of `fetchGitHubData`.

JavaScript plain objects used as accumulators (`acc[key] = (acc[key] || 0) + v`)
are modelled as association lists in key-insertion order: assigning to an
existing key updates it in place, a fresh key is appended at the end, which is
exactly the enumeration order `Object.entries` later observes for these
non-integer-like keys.  `Array.prototype.sort` (stable since ES2019) is
modelled by the stable `List.insertionSort`.  The timezone-dependent
`new Date(s).toLocaleDateString()` and `new Date(s).getTime()` conversions are
abstracted as function parameters `toLocal` and `getTime`.
-/

namespace GithubAnalyzer

/-- The `Repository` interface of `App.tsx` (the fields the UI reads).
`language` is `Option String`: the upstream API reports `null` when a
repository has no primary language; JS truthiness also rejects `""`. -/
structure Repository where
  id : Nat
  name : String
  description : Option String
  stargazers_count : Nat
  language : Option String
  html_url : String
  forks_count : Nat
  created_at : String
  updated_at : String
deriving DecidableEq

/-- The `UserProfile` interface of `App.tsx`. -/
structure UserProfile where
  avatar_url : String
  name : String
  login : String
  bio : Option String
  followers : Nat
  following : Nat
  public_repos : Nat
  created_at : String
deriving DecidableEq

/-- One entry of the events payload: its `type` tag, its `created_at`
timestamp, and `payload.size` (the commit count of a push; only read for
`PushEvent` entries). -/
structure Event where
  type : String
  created_at : String
  payload_size : Nat
deriving DecidableEq

/-- `acc[k] = (acc[k] || 0) + v` on a JS object in key-insertion order:
update the (unique) existing entry for `k` in place, else append `(k, v)`. -/
def accAdd : List (String × Nat) → String → Nat → List (String × Nat)
  | [], k, v => [(k, v)]
  | (k', v') :: rest, k, v =>
    if k' = k then (k', v' + v) :: rest else (k', v') :: accAdd rest k v

/-- Total value recorded for key `d` in an accumulator. -/
def keySum (acc : List (String × Nat)) (d : String) : Nat :=
  ((acc.filter fun p => p.1 == d).map Prod.snd).sum

/-- Sum of all values of an accumulator. -/
def sumVals (acc : List (String × Nat)) : Nat :=
  (acc.map Prod.snd).sum

/-- JS truthiness of `repo.language`: the language string when it is present
and non-empty, `none` otherwise (`null` and `""` are falsy). -/
def truthyLang (repo : Repository) : Option String :=
  match repo.language with
  | some l => if l = "" then none else some l
  | none => none

/-- The reducer of the language histogram:
`if (repo.language) acc[repo.language] = (acc[repo.language] || 0) + 1`. -/
def langStep (acc : List (String × Nat)) (repo : Repository) : List (String × Nat) :=
  match truthyLang repo with
  | some l => accAdd acc l 1
  | none => acc

/-- `langMap`: `reposData.reduce(...)` of `App.tsx` lines 75–80. -/
def langMap (reposData : List Repository) : List (String × Nat) :=
  reposData.foldl langStep []

/-- The ordering realised by the comparator `(a, b) => b.count - a.count`:
`a` may precede `b` iff `b.count ≤ a.count`. -/
def countGe (a b : String × Nat) : Prop := b.2 ≤ a.2

instance : DecidableRel countGe :=
  fun a b => inferInstanceAs (Decidable (b.2 ≤ a.2))

instance : IsTotal (String × Nat) countGe :=
  ⟨fun a b => Nat.le_total b.2 a.2⟩

instance : IsTrans (String × Nat) countGe :=
  ⟨fun _ _ _ h1 h2 => Nat.le_trans h2 h1⟩

/-- `langStats`: `Object.entries(langMap).map(...).sort((a, b) => b.count - a.count)`
(`App.tsx` lines 82–85), a stable sort by count descending over the entries in
key-insertion order. -/
def langStats (reposData : List Repository) : List (String × Nat) :=
  List.insertionSort countGe (langMap reposData)

/-- The push reducer: `acc[date] = (acc[date] || 0) + event.payload.size`
with `date = new Date(event.created_at).toLocaleDateString()`. -/
def commitStep (toLocal : String → String) (acc : List (String × Nat)) (e : Event) :
    List (String × Nat) :=
  accAdd acc (toLocal e.created_at) e.payload_size

/-- `commitsByDate`: `eventsData.filter(e => e.type === 'PushEvent').reduce(...)`
(`App.tsx` lines 92–98). -/
def commitsByDate (toLocal : String → String) (eventsData : List Event) :
    List (String × Nat) :=
  (eventsData.filter fun e => e.type == "PushEvent").foldl (commitStep toLocal) []

/-- The ordering realised by `(a, b) => new Date(a.date).getTime() - new Date(b.date).getTime()`:
ascending by the instant parsed back from the date string. -/
def dateLe (getTime : String → Int) (a b : String × Nat) : Prop :=
  getTime a.1 ≤ getTime b.1

instance (getTime : String → Int) : DecidableRel (dateLe getTime) :=
  fun a b => inferInstanceAs (Decidable (getTime a.1 ≤ getTime b.1))

instance (getTime : String → Int) : IsTotal (String × Nat) (dateLe getTime) :=
  ⟨fun a b => Int.le_total (getTime a.1) (getTime b.1)⟩

instance (getTime : String → Int) : IsTrans (String × Nat) (dateLe getTime) :=
  ⟨fun _ _ _ h1 h2 => Int.le_trans h1 h2⟩

/-- `processedCommitData`: `Object.entries(commitsByDate).map(...).sort(...)`
(`App.tsx` lines 100–102), a stable chronological sort of the per-date totals. -/
def processedCommitData (toLocal : String → String) (getTime : String → Int)
    (eventsData : List Event) : List (String × Nat) :=
  List.insertionSort (dateLe getTime) (commitsByDate toLocal eventsData)

/-- The six React state slots of `App`. -/
structure AppState where
  repos : List Repository
  profile : Option UserProfile
  commitData : List (String × Nat)
  languageStats : List (String × Nat)
  loading : Bool
  error : String
deriving DecidableEq

/-- Outcome of the three network fetches of one query cycle: `none` models a
response with `!response.ok` (or a network failure), `some` a parsed payload. -/
structure FetchResults where
  profileResp : Option UserProfile
  reposResp : Option (List Repository)
  eventsResp : Option (List Event)
deriving DecidableEq

/-- The `catch` block of `fetchGitHubData` (lines 105–110): set the error
message, then clear profile, repos, commit data and language stats, one state
update at a time.  Returns the emitted states and the final one. -/
def catchSeq (s : AppState) (msg : String) : List AppState × AppState :=
  let s1 := { s with error := msg }
  let s2 := { s1 with profile := none }
  let s3 := { s2 with repos := [] }
  let s4 := { s3 with commitData := [] }
  let s5 := { s4 with languageStats := [] }
  ([s1, s2, s3, s4, s5], s5)

/-- The `try` block of `fetchGitHubData` (lines 61–104): fetch the profile and
publish it, fetch the repositories and publish them together with the language
stats, fetch the events and publish the commit data; a failed fetch throws into
`catchSeq` with the corresponding message.  Returns the emitted states in
order and the last state of the block. -/
def trySeq (toLocal : String → String) (getTime : String → Int)
    (fr : FetchResults) (s : AppState) : List AppState × AppState :=
  match fr.profileResp with
  | none => catchSeq s "User not found or API limit exceeded"
  | some profileData =>
    let sp := { s with profile := some profileData }
    match fr.reposResp with
    | none =>
      let (cs, se) := catchSeq sp "Failed to fetch repositories"
      (sp :: cs, se)
    | some reposData =>
      let sr := { sp with repos := reposData }
      let sl := { sr with languageStats := langStats reposData }
      match fr.eventsResp with
      | none =>
        let (cs, se) := catchSeq sl "Failed to fetch commit data"
        (sp :: sr :: sl :: cs, se)
      | some eventsData =>
        let sc := { sl with commitData := processedCommitData toLocal getTime eventsData }
        ([sp, sr, sl, sc], sc)

/-- The full sequence of state values published by one call of
`fetchGitHubData`, in order: empty for an empty username (the early return),
otherwise `setLoading(true)`, `setError('')`, the `try`/`catch` body, and the
`finally` block's `setLoading(false)`. -/
def fetchStates (toLocal : String → String) (getTime : String → Int)
    (username : String) (fr : FetchResults) (s0 : AppState) : List AppState :=
  if username = "" then []
  else
    let s1 := { s0 with loading := true }
    let s2 := { s1 with error := "" }
    let (ts, se) := trySeq toLocal getTime fr s2
    s1 :: s2 :: (ts ++ [{ se with loading := false }])

/-- The state left behind by one call of `fetchGitHubData`. -/
def fetchFinal (toLocal : String → String) (getTime : String → Int)
    (username : String) (fr : FetchResults) (s0 : AppState) : AppState :=
  if username = "" then s0
  else
    let s1 := { s0 with loading := true }
    let s2 := { s1 with error := "" }
    let (_, se) := trySeq toLocal getTime fr s2
    { se with loading := false }

/-- The URLs requested by one call of `fetchGitHubData`: nothing for an empty
username; otherwise the profile URL, then — only if the previous fetch was ok —
the repository URL and then the events URL. -/
def fetchRequests (username : String) (fr : FetchResults) : List String :=
  if username = "" then []
  else
    ("https://api.github.com/users/" ++ username) ::
      match fr.profileResp with
      | none => []
      | some _ =>
        ("https://api.github.com/users/" ++ username ++ "/repos?sort=updated&per_page=100") ::
          match fr.reposResp with
          | none => []
          | some _ => ["https://api.github.com/users/" ++ username ++ "/events"]

/-- The four published derived views of a state. -/
def views (s : AppState) :
    Option UserProfile × List Repository × List (String × Nat) × List (String × Nat) :=
  (s.profile, s.repos, s.languageStats, s.commitData)

/-! ### Lemmas about the JS-object accumulator -/

theorem mem_keys_accAdd (acc : List (String × Nat)) (k : String) (v : Nat) (d : String) :
    d ∈ (accAdd acc k v).map Prod.fst ↔ d ∈ acc.map Prod.fst ∨ d = k := by
  induction acc with
  | nil => simp [accAdd]
  | cons p rest ih =>
    obtain ⟨k', v'⟩ := p
    by_cases h : k' = k
    · subst h
      simp [accAdd]
      tauto
    · simp [accAdd, h, ih]
      tauto

theorem nodup_keys_accAdd (acc : List (String × Nat)) (k : String) (v : Nat)
    (h : (acc.map Prod.fst).Nodup) : ((accAdd acc k v).map Prod.fst).Nodup := by
  induction acc with
  | nil => simp [accAdd]
  | cons p rest ih =>
    obtain ⟨k', v'⟩ := p
    simp only [List.map_cons, List.nodup_cons] at h
    by_cases hk : k' = k
    · subst hk
      simpa [accAdd] using h
    · simp only [accAdd, if_neg hk, List.map_cons, List.nodup_cons]
      refine ⟨?_, ih h.2⟩
      rw [mem_keys_accAdd]
      rintro (hm | hm)
      · exact h.1 hm
      · exact hk hm

theorem keySum_cons (a : String) (b : Nat) (rest : List (String × Nat)) (d : String) :
    keySum ((a, b) :: rest) d = (if a = d then b else 0) + keySum rest d := by
  by_cases h : a = d <;> simp [keySum, List.filter_cons, h]

theorem keySum_accAdd (acc : List (String × Nat)) (k : String) (v : Nat) (d : String) :
    keySum (accAdd acc k v) d = keySum acc d + if k = d then v else 0 := by
  induction acc with
  | nil =>
    by_cases h : k = d <;> simp [accAdd, keySum, List.filter_cons, h]
  | cons p rest ih =>
    obtain ⟨k', v'⟩ := p
    by_cases h : k' = k
    · simp only [accAdd, if_pos h, keySum_cons]
      by_cases hd : k' = d
      · have hkd : k = d := by rw [← h]; exact hd
        simp only [if_pos hd, if_pos hkd]
        omega
      · have hkd : ¬k = d := by rw [← h]; exact hd
        simp only [if_neg hd, if_neg hkd]
        omega
    · simp only [accAdd, if_neg h, keySum_cons, ih]
      omega

theorem sumVals_accAdd (acc : List (String × Nat)) (k : String) (v : Nat) :
    sumVals (accAdd acc k v) = sumVals acc + v := by
  induction acc with
  | nil => simp [accAdd, sumVals]
  | cons p rest ih =>
    obtain ⟨k', v'⟩ := p
    by_cases h : k' = k <;>
      simp [accAdd, h, sumVals] at ih ⊢ <;> omega

theorem pos_accAdd (acc : List (String × Nat)) (k : String) (v : Nat)
    (ha : ∀ p ∈ acc, 1 ≤ p.2) (hv : 1 ≤ v) : ∀ p ∈ accAdd acc k v, 1 ≤ p.2 := by
  induction acc with
  | nil =>
    intro p hp
    simp only [accAdd, List.mem_singleton] at hp
    subst hp
    exact hv
  | cons q rest ih =>
    obtain ⟨k', v'⟩ := q
    intro p hp
    by_cases h : k' = k
    · simp only [accAdd, if_pos h, List.mem_cons] at hp
      rcases hp with hp | hp
      · subst hp
        have h1 : 1 ≤ v' := ha (k', v') (List.mem_cons_self _ _)
        show 1 ≤ v' + v
        omega
      · exact ha p (List.mem_cons_of_mem _ hp)
    · simp only [accAdd, if_neg h, List.mem_cons] at hp
      rcases hp with hp | hp
      · subst hp
        exact ha (k', v') (List.mem_cons_self _ _)
      · exact ih (fun q hq => ha q (List.mem_cons_of_mem _ hq)) p hp

theorem keySum_eq_zero (acc : List (String × Nat)) (d : String)
    (h : d ∉ acc.map Prod.fst) : keySum acc d = 0 := by
  induction acc with
  | nil => rfl
  | cons p rest ih =>
    obtain ⟨a, b⟩ := p
    simp only [List.map_cons, List.mem_cons] at h
    push_neg at h
    rw [keySum_cons, if_neg (fun e => h.1 e.symm), ih h.2]

theorem val_eq_keySum (acc : List (String × Nat)) (p : String × Nat)
    (hnd : (acc.map Prod.fst).Nodup) (hp : p ∈ acc) : p.2 = keySum acc p.1 := by
  induction acc with
  | nil => cases hp
  | cons q rest ih =>
    obtain ⟨a, b⟩ := q
    simp only [List.map_cons, List.nodup_cons] at hnd
    rcases List.mem_cons.mp hp with hq | hq
    · subst hq
      rw [keySum_cons, if_pos rfl, keySum_eq_zero rest _ (by simpa using hnd.1)]
      simp
    · have hne : a ≠ p.1 := by
        intro e
        exact hnd.1 (e ▸ List.mem_map_of_mem Prod.fst hq)
      rw [keySum_cons, if_neg hne, ih hnd.2 hq]
      omega

/-! ### Lemmas about the two aggregation folds -/

theorem commitFold_keys (toLocal : String → String) (l : List Event)
    (acc : List (String × Nat)) (d : String) :
    d ∈ (l.foldl (commitStep toLocal) acc).map Prod.fst ↔
      d ∈ acc.map Prod.fst ∨ ∃ e ∈ l, toLocal e.created_at = d := by
  induction l generalizing acc with
  | nil => simp
  | cons e rest ih =>
    simp only [List.foldl_cons, ih, commitStep, mem_keys_accAdd, List.mem_cons]
    constructor
    · rintro (⟨hm | hm⟩ | ⟨e', he', hd⟩)
      · exact Or.inl hm
      · exact Or.inr ⟨e, Or.inl rfl, hm.symm⟩
      · exact Or.inr ⟨e', Or.inr he', hd⟩
    · rintro (hm | ⟨e', he' | he', hd⟩)
      · exact Or.inl (Or.inl hm)
      · exact Or.inl (Or.inr (he' ▸ hd).symm)
      · exact Or.inr ⟨e', he', hd⟩

theorem commitFold_nodup (toLocal : String → String) (l : List Event)
    (acc : List (String × Nat)) (h : (acc.map Prod.fst).Nodup) :
    ((l.foldl (commitStep toLocal) acc).map Prod.fst).Nodup := by
  induction l generalizing acc with
  | nil => exact h
  | cons e rest ih => exact ih _ (nodup_keys_accAdd _ _ _ h)

theorem commitFold_keySum (toLocal : String → String) (l : List Event)
    (acc : List (String × Nat)) (d : String) :
    keySum (l.foldl (commitStep toLocal) acc) d
      = keySum acc d
        + ((l.filter fun e => toLocal e.created_at == d).map Event.payload_size).sum := by
  induction l generalizing acc with
  | nil => simp
  | cons e rest ih =>
    simp only [List.foldl_cons, ih, commitStep, keySum_accAdd, List.filter_cons]
    by_cases h : toLocal e.created_at = d <;> simp [h] <;> omega

theorem langFold_keys (R : List Repository) (acc : List (String × Nat)) (d : String) :
    d ∈ (R.foldl langStep acc).map Prod.fst ↔
      d ∈ acc.map Prod.fst ∨ ∃ r ∈ R, truthyLang r = some d := by
  induction R generalizing acc with
  | nil => simp
  | cons r rest ih =>
    rcases h : truthyLang r with _ | l
    · simp only [List.foldl_cons, langStep, h, ih, List.mem_cons]
      constructor
      · rintro (hm | ⟨r', hr', hd⟩)
        · exact Or.inl hm
        · exact Or.inr ⟨r', Or.inr hr', hd⟩
      · rintro (hm | ⟨r', hr' | hr', hd⟩)
        · exact Or.inl hm
        · subst hr'
          rw [h] at hd
          cases hd
        · exact Or.inr ⟨r', hr', hd⟩
    · simp only [List.foldl_cons, langStep, h, ih, mem_keys_accAdd, List.mem_cons]
      constructor
      · rintro (⟨hm | hm⟩ | ⟨r', hr', hd⟩)
        · exact Or.inl hm
        · exact Or.inr ⟨r, Or.inl rfl, by rw [h, hm]⟩
        · exact Or.inr ⟨r', Or.inr hr', hd⟩
      · rintro (hm | ⟨r', hr' | hr', hd⟩)
        · exact Or.inl (Or.inl hm)
        · subst hr'
          rw [h] at hd
          exact Or.inl (Or.inr (Option.some_inj.mp hd).symm)
        · exact Or.inr ⟨r', hr', hd⟩

theorem langFold_nodup (R : List Repository) (acc : List (String × Nat))
    (h : (acc.map Prod.fst).Nodup) : ((R.foldl langStep acc).map Prod.fst).Nodup := by
  induction R generalizing acc with
  | nil => exact h
  | cons r rest ih =>
    rcases hr : truthyLang r with _ | l <;>
      simp only [List.foldl_cons, langStep, hr]
    · exact ih _ h
    · exact ih _ (nodup_keys_accAdd _ _ _ h)

theorem langFold_keySum (R : List Repository) (acc : List (String × Nat)) (d : String) :
    keySum (R.foldl langStep acc) d
      = keySum acc d + (R.filter fun r => truthyLang r == some d).length := by
  induction R generalizing acc with
  | nil => simp
  | cons r rest ih =>
    rcases h : truthyLang r with _ | l <;>
      simp only [List.foldl_cons, langStep, h, ih, keySum_accAdd, List.filter_cons]
    · simp [h]
    · by_cases hd : l = d <;> simp [h, hd] <;> omega

theorem langFold_sumVals (R : List Repository) (acc : List (String × Nat)) :
    sumVals (R.foldl langStep acc)
      = sumVals acc + (R.filter fun r => (truthyLang r).isSome).length := by
  induction R generalizing acc with
  | nil => simp
  | cons r rest ih =>
    rcases h : truthyLang r with _ | l <;>
      simp only [List.foldl_cons, langStep, h, ih, sumVals_accAdd, List.filter_cons] <;>
      simp [h] <;> omega

theorem langFold_pos (R : List Repository) (acc : List (String × Nat))
    (ha : ∀ p ∈ acc, 1 ≤ p.2) : ∀ p ∈ R.foldl langStep acc, 1 ≤ p.2 := by
  induction R generalizing acc with
  | nil => exact ha
  | cons r rest ih =>
    rcases h : truthyLang r with _ | l <;>
      simp only [List.foldl_cons, langStep, h]
    · exact ih _ ha
    · exact ih _ (pos_accAdd _ _ _ ha (by omega))

/-! ### Characterisation of the two aggregates -/

theorem langStats_perm (R : List Repository) : List.Perm (langStats R) (langMap R) :=
  List.perm_insertionSort _ _

theorem processedCommitData_perm (toLocal : String → String) (getTime : String → Int)
    (E : List Event) :
    List.Perm (processedCommitData toLocal getTime E) (commitsByDate toLocal E) :=
  List.perm_insertionSort _ _

theorem langMap_keys_nodup (R : List Repository) : ((langMap R).map Prod.fst).Nodup :=
  langFold_nodup R [] (by simp)

theorem langMap_keys_mem (R : List Repository) (d : String) :
    d ∈ (langMap R).map Prod.fst ↔ ∃ r ∈ R, truthyLang r = some d := by
  rw [langMap, langFold_keys]
  simp

theorem langMap_sumVals (R : List Repository) :
    sumVals (langMap R) = (R.filter fun r => (truthyLang r).isSome).length := by
  rw [langMap, langFold_sumVals]
  simp [sumVals]

theorem commitsByDate_keys_nodup (toLocal : String → String) (E : List Event) :
    ((commitsByDate toLocal E).map Prod.fst).Nodup :=
  commitFold_nodup toLocal _ [] (by simp)

theorem commitsByDate_keys_mem (toLocal : String → String) (E : List Event) (d : String) :
    d ∈ (commitsByDate toLocal E).map Prod.fst ↔
      ∃ e ∈ E, e.type = "PushEvent" ∧ toLocal e.created_at = d := by
  rw [commitsByDate, commitFold_keys]
  simp only [List.map_nil, List.not_mem_nil, false_or, List.mem_filter, beq_iff_eq]
  constructor
  · rintro ⟨e, ⟨he, ht⟩, hd⟩
    exact ⟨e, he, ht, hd⟩
  · rintro ⟨e, he, ht, hd⟩
    exact ⟨e, ⟨he, ht⟩, hd⟩

theorem commitsByDate_val (toLocal : String → String) (E : List Event) (p : String × Nat)
    (hp : p ∈ commitsByDate toLocal E) :
    p.2 = (((E.filter fun e => e.type == "PushEvent").filter
      fun e => toLocal e.created_at == p.1).map Event.payload_size).sum := by
  have h1 := val_eq_keySum _ p (commitsByDate_keys_nodup toLocal E) hp
  rw [commitsByDate] at h1
  rw [h1, commitFold_keySum]
  simp [keySum]

/-! ### Concrete scenario data -/

/-- A repository record with the given id, name and primary language; the
remaining fields are irrelevant to the aggregates. -/
def mkRepo (i : Nat) (nm : String) (lang : Option String) : Repository :=
  ⟨i, nm, none, 0, lang, "", 0, "", ""⟩

/-- The spec's `"octocat"` scenario: three repositories with primary languages
`["Go", "Go", "TypeScript"]`. -/
def octocatRepos : List Repository :=
  [mkRepo 1 "first" (some "Go"), mkRepo 2 "second" (some "Go"),
    mkRepo 3 "third" (some "TypeScript")]

/-- A concrete local-date conversion: every timestamp falls on the same local
calendar date. -/
def wToLocal : String → String := fun _ => "2024-01-05"

/-- A concrete reconstruction of instants from date strings. -/
def wGetTime : String → Int := fun _ => 0

/-- A push event of size 2. -/
def wPush2 : Event := ⟨"PushEvent", "2024-01-05T10:00:00Z", 2⟩

/-- A push event of size 5, later the same local day. -/
def wPush5 : Event := ⟨"PushEvent", "2024-01-05T15:00:00Z", 5⟩

/-- A push event whose payload size is zero. -/
def wZeroEvent : Event := ⟨"PushEvent", "2024-01-05T00:00:00Z", 0⟩

/-- A state left over from an earlier query: an activity series is on display. -/
def cOldState : AppState :=
  { repos := [], profile := none, commitData := [("2020-01-01", 1)],
    languageStats := [], loading := false, error := "" }

/-- The profile returned by the next query. -/
def cProfile : UserProfile := ⟨"", "Alice", "alice", none, 0, 0, 0, ""⟩

/-- A fully successful fetch cycle: the new profile, no repositories, no
events. -/
def cFetchResults : FetchResults := ⟨some cProfile, some [], some []⟩

/-- A cycle in which already the profile fetch fails. -/
def cFailResults : FetchResults := ⟨none, none, none⟩

/-- The state published right after `setProfile` of the successful cycle: the
new profile next to the previous query's activity series. -/
def cMidState : AppState :=
  { repos := [], profile := some cProfile, commitData := [("2020-01-01", 1)],
    languageStats := [], loading := true, error := "" }

/-! ### The claims -/

/-- Claim C1: for every event sequence `E`, the activity series has exactly one
entry per distinct local calendar date occurring among push-kind events of `E`;
each entry's value is the sum of the push sizes of the push events on that
date; non-push events contribute nothing.  In particular two push events on
the same local date with sizes 2 and 5 yield the single entry `(date, 7)`. -/
theorem c1_activity_series (toLocal : String → String) (getTime : String → Int)
    (E : List Event) :
    ((processedCommitData toLocal getTime E).map Prod.fst).Nodup
    ∧ (∀ d : String,
        d ∈ (processedCommitData toLocal getTime E).map Prod.fst ↔
          ∃ e ∈ E, e.type = "PushEvent" ∧ toLocal e.created_at = d)
    ∧ (∀ p ∈ processedCommitData toLocal getTime E,
        p.2 = (((E.filter fun e => e.type == "PushEvent").filter
          fun e => toLocal e.created_at == p.1).map Event.payload_size).sum)
    ∧ processedCommitData wToLocal wGetTime [wPush2, wPush5] = [("2024-01-05", 7)] := by
  refine ⟨?_, ?_, ?_, by decide⟩
  · exact ((processedCommitData_perm toLocal getTime E).map Prod.fst).nodup_iff.mpr
      (commitsByDate_keys_nodup toLocal E)
  · intro d
    rw [((processedCommitData_perm toLocal getTime E).map Prod.fst).mem_iff]
    exact commitsByDate_keys_mem toLocal E d
  · intro p hp
    exact commitsByDate_val toLocal E p
      ((processedCommitData_perm toLocal getTime E).mem_iff.mp hp)

/-- Claim C2: for every repository sequence `R`, the counts of the language
histogram sum to the number of repositories of `R` whose primary-language
field is present and non-empty; repositories without a language contribute to
no entry.  In particular languages `["Go", "Go", "TypeScript"]` yield the
histogram `[("Go", 2), ("TypeScript", 1)]`. -/
theorem c2_histogram_counts (R : List Repository) :
    ((langStats R).map Prod.snd).sum = (R.filter fun r => (truthyLang r).isSome).length
    ∧ langStats octocatRepos = [("Go", 2), ("TypeScript", 1)] := by
  refine ⟨?_, by decide⟩
  rw [((langStats_perm R).map Prod.snd).sum_eq]
  exact langMap_sumVals R

/-- Claim C3: whenever any one of the three fetches of a cycle fails, the
state at the end of the cycle has a null profile, empty repositories, empty
histogram, empty activity series, and a non-empty error message — at all three
failure injection points alike. -/
theorem c3_failure_state (toLocal : String → String) (getTime : String → Int)
    (username : String) (fr : FetchResults) (s0 : AppState)
    (h : username ≠ "")
    (hfail : fr.profileResp = none ∨ fr.reposResp = none ∨ fr.eventsResp = none) :
    (fetchFinal toLocal getTime username fr s0).profile = none
    ∧ (fetchFinal toLocal getTime username fr s0).repos = []
    ∧ (fetchFinal toLocal getTime username fr s0).languageStats = []
    ∧ (fetchFinal toLocal getTime username fr s0).commitData = []
    ∧ (fetchFinal toLocal getTime username fr s0).error ≠ "" := by
  obtain ⟨p, r, e⟩ := fr
  rcases p with _ | p <;> rcases r with _ | r <;> rcases e with _ | e <;>
    simp_all [fetchFinal, trySeq, catchSeq]

/-- Witness for C3 at a concrete failing cycle. -/
theorem c3_witness :
    "alice" ≠ ""
    ∧ (cFailResults.profileResp = none ∨ cFailResults.reposResp = none
        ∨ cFailResults.eventsResp = none)
    ∧ (fetchFinal wToLocal wGetTime "alice" cFailResults cOldState).profile = none
    ∧ (fetchFinal wToLocal wGetTime "alice" cFailResults cOldState).repos = []
    ∧ (fetchFinal wToLocal wGetTime "alice" cFailResults cOldState).languageStats = []
    ∧ (fetchFinal wToLocal wGetTime "alice" cFailResults cOldState).commitData = []
    ∧ (fetchFinal wToLocal wGetTime "alice" cFailResults cOldState).error ≠ "" := by
  have h := c3_failure_state wToLocal wGetTime "alice" cFailResults cOldState
    (by decide) (Or.inl rfl)
  exact ⟨by decide, Or.inl rfl, h.1, h.2.1, h.2.2.1, h.2.2.2.1, h.2.2.2.2⟩

/-- Claim C4, amended: derived state is published incrementally during a cycle
(the profile right after the profile fetch, repositories and histogram after
the repository fetch, the activity series after the events fetch), so the four
views need not be mutually consistent at intermediate observable points; they
are mutually consistent at the end of every completed cycle: on success all
four reflect the current cycle's fetched data, on failure all are cleared
together. -/
theorem c4_final_views_consistent (toLocal : String → String) (getTime : String → Int)
    (username : String) (fr : FetchResults) (s0 : AppState) (h : username ≠ "") :
    (∀ p r e, fr = ⟨some p, some r, some e⟩ →
      views (fetchFinal toLocal getTime username fr s0)
        = (some p, r, langStats r, processedCommitData toLocal getTime e))
    ∧ ((fr.profileResp = none ∨ fr.reposResp = none ∨ fr.eventsResp = none) →
      views (fetchFinal toLocal getTime username fr s0) = (none, [], [], [])) := by
  obtain ⟨p, r, e⟩ := fr
  constructor
  · rintro p' r' e' heq
    injection heq with h1 h2 h3
    subst h1; subst h2; subst h3
    simp [fetchFinal, trySeq, views, h]
  · rintro (hf | hf | hf) <;>
      simp_all [fetchFinal, trySeq, catchSeq, views] <;>
      rcases p with _ | p <;> rcases r with _ | r <;> rcases e with _ | e <;>
      simp_all [fetchFinal, trySeq, catchSeq, views]

/-- Witness for the amended C4 at a concrete successful cycle. -/
theorem c4_witness :
    "alice" ≠ ""
    ∧ views (fetchFinal wToLocal wGetTime "alice" cFetchResults cOldState)
        = (some cProfile, [], langStats [], processedCommitData wToLocal wGetTime []) := by
  have h := c4_final_views_consistent wToLocal wGetTime "alice" cFetchResults cOldState
    (by decide)
  exact ⟨by decide, h.1 cProfile [] [] rfl⟩

/-- Counterexample to C4 as stated: in a successful cycle following an earlier
query, the state published right after `setProfile` (observable while the
repository fetch is still pending) shows the new profile next to the previous
query's activity series — it matches neither the pre-cycle views nor the
end-of-cycle views, so the views are not replaced atomically and derived state
is published before all three fetches have resolved. -/
theorem c4_counterexample :
    cMidState ∈ fetchStates wToLocal wGetTime "alice" cFetchResults cOldState
    ∧ views cMidState ≠ views cOldState
    ∧ views cMidState
        ≠ views (fetchFinal wToLocal wGetTime "alice" cFetchResults cOldState) := by
  refine ⟨by decide, by decide, by decide⟩

/-- Claim C5: for every event sequence `E`, in any order, the activity series
is non-decreasing in the chronological value `getTime` reconstructs from each
entry's date string. -/
theorem c5_chronological (toLocal : String → String) (getTime : String → Int)
    (E : List Event) :
    List.Sorted (dateLe getTime) (processedCommitData toLocal getTime E) :=
  List.sorted_insertionSort _ _

/-- Claim C6: for every repository sequence `R`, the histogram is sorted by
count descending, and every language occurring as the non-empty primary
language of some repository of `R` appears in it exactly once. -/
theorem c6_histogram_sorted (R : List Repository) :
    List.Sorted countGe (langStats R)
    ∧ ((langStats R).map Prod.fst).Nodup
    ∧ ∀ lang : String,
        lang ∈ (langStats R).map Prod.fst ↔ ∃ r ∈ R, truthyLang r = some lang := by
  refine ⟨List.sorted_insertionSort _ _, ?_, ?_⟩
  · exact ((langStats_perm R).map Prod.fst).nodup_iff.mpr (langMap_keys_nodup R)
  · intro lang
    rw [((langStats_perm R).map Prod.fst).mem_iff]
    exact langMap_keys_mem R lang

/-- Claim C7: if some push event of `E` falls on local date `d`, then `d`
appears in the activity series paired with the (possibly zero) sum of the push
sizes on that date — a zero total is included, not filtered out. -/
theorem c7_zero_size_included (toLocal : String → String) (getTime : String → Int)
    (E : List Event) (d : String)
    (h : ∃ e ∈ E, e.type = "PushEvent" ∧ toLocal e.created_at = d) :
    (d, (((E.filter fun e => e.type == "PushEvent").filter
        fun e => toLocal e.created_at == d).map Event.payload_size).sum)
      ∈ processedCommitData toLocal getTime E := by
  have hd : d ∈ (commitsByDate toLocal E).map Prod.fst :=
    (commitsByDate_keys_mem toLocal E d).mpr h
  obtain ⟨p, hp, hpd⟩ := List.mem_map.mp hd
  have hv := commitsByDate_val toLocal E p hp
  rw [(processedCommitData_perm toLocal getTime E).mem_iff]
  have : p = (d, (((E.filter fun e => e.type == "PushEvent").filter
      fun e => toLocal e.created_at == d).map Event.payload_size).sum) := by
    obtain ⟨pd, pv⟩ := p
    simp only at hpd
    subst hpd
    simp only at hv
    rw [hv]
  exact this ▸ hp

/-- Witness for C7: a single zero-size push still yields the entry
`(date, 0)`. -/
theorem c7_witness :
    wZeroEvent ∈ [wZeroEvent]
    ∧ wZeroEvent.type = "PushEvent"
    ∧ wToLocal wZeroEvent.created_at = "2024-01-05"
    ∧ ("2024-01-05", 0) ∈ processedCommitData wToLocal wGetTime [wZeroEvent] := by
  refine ⟨by decide, by decide, by decide, ?_⟩
  exact c7_zero_size_included wToLocal wGetTime [wZeroEvent] "2024-01-05"
    ⟨wZeroEvent, by decide, by decide, by decide⟩

/-- Claim C8: an empty query identifier is a no-op: no network requests, no
state updates, the published state is unchanged. -/
theorem c8_empty_username (toLocal : String → String) (getTime : String → Int)
    (fr : FetchResults) (s0 : AppState) :
    fetchFinal toLocal getTime "" fr s0 = s0
    ∧ fetchStates toLocal getTime "" fr s0 = []
    ∧ fetchRequests "" fr = [] := by
  refine ⟨?_, ?_, ?_⟩ <;> simp [fetchFinal, fetchStates, fetchRequests]

/-- Claim C9: every histogram entry has count at least 1; no language appears
with count zero. -/
theorem c9_counts_positive (R : List Repository) :
    ∀ p ∈ langStats R, 1 ≤ p.2 := by
  intro p hp
  exact langFold_pos R [] (by simp) p ((langStats_perm R).mem_iff.mp hp)

/-- Witness for C9 at the octocat scenario. -/
theorem c9_witness :
    ("Go", 2) ∈ langStats octocatRepos ∧ 1 ≤ (("Go", 2) : String × Nat).2 :=
  ⟨by decide, c9_counts_positive octocatRepos ("Go", 2) (by decide)⟩

/-- Claim C10: for a non-empty identifier, every state published before the
cycle's last one has the loading flag set, the final state has it cleared —
on the success and on the failure path — and after a fully successful cycle
the error message is empty. -/
theorem c10_loading_flag (toLocal : String → String) (getTime : String → Int)
    (username : String) (fr : FetchResults) (s0 : AppState) (h : username ≠ "") :
    (∀ s ∈ (fetchStates toLocal getTime username fr s0).dropLast, s.loading = true)
    ∧ (fetchFinal toLocal getTime username fr s0).loading = false
    ∧ (∀ p r e, fr = ⟨some p, some r, some e⟩ →
        (fetchFinal toLocal getTime username fr s0).error = "") := by
  obtain ⟨p, r, e⟩ := fr
  refine ⟨?_, ?_, ?_⟩
  · rcases p with _ | p <;> rcases r with _ | r <;> rcases e with _ | e <;>
      simp_all [fetchStates, trySeq, catchSeq, List.dropLast]
  · rcases p with _ | p <;> rcases r with _ | r <;> rcases e with _ | e <;>
      simp_all [fetchFinal, trySeq, catchSeq]
  · rintro p' r' e' heq
    injection heq with h1 h2 h3
    subst h1; subst h2; subst h3
    simp [fetchFinal, trySeq, h]

/-- Witness for C10 at a concrete successful cycle. -/
theorem c10_witness :
    "alice" ≠ ""
    ∧ (fetchFinal wToLocal wGetTime "alice" cFetchResults cOldState).loading = false
    ∧ (fetchFinal wToLocal wGetTime "alice" cFetchResults cOldState).error = "" := by
  have h := c10_loading_flag wToLocal wGetTime "alice" cFetchResults cOldState (by decide)
  exact ⟨by decide, h.2.1, h.2.2 cProfile [] [] rfl⟩

end GithubAnalyzer
